import Mathlib

/-!
Verification of the ranked-prefix-search trie from `src/trie.rs`.

The Rust code is shallowly embedded: `TrieNode` mirrors the `TrieNode`
struct (with the `HashMap<char, TrieNode>` children map rendered as an
association list, a deterministic refinement of the unordered map),
`Trie` mirrors `Trie`, and each `impl` method is a Lean function of the
same name.  Scores are `Int` (`i64` overflow is irrelevant here: the code
only compares and takes maxima).  The best-first loop of
`_get_ranked_results` runs on explicit fuel; `_get_ranked_results`
supplies fuel that is proved (and used) to be sufficient, mirroring the
terminating `while let` loop of the source.
-/

set_option maxHeartbeats 1000000

namespace RustTrie

/-- `enum TrieNodeType` from `src/trie.rs`. -/
inductive TrieNodeType where
  | Final
  | Intermediate
deriving DecidableEq

/-- `struct TrieNode` from `src/trie.rs`; `children: HashMap<char, TrieNode>`
is modelled as an association list with distinct keys. -/
inductive TrieNode where
  | mk (value : Option Char) (children : List (Char × TrieNode))
      (node_type : TrieNodeType) (word_score : Option Int) (node_score : Int)

def TrieNode.value : TrieNode → Option Char
  | .mk v _ _ _ _ => v

def TrieNode.children : TrieNode → List (Char × TrieNode)
  | .mk _ cs _ _ _ => cs

def TrieNode.node_type : TrieNode → TrieNodeType
  | .mk _ _ t _ _ => t

def TrieNode.word_score : TrieNode → Option Int
  | .mk _ _ _ ws _ => ws

def TrieNode.node_score : TrieNode → Int
  | .mk _ _ _ _ ns => ns

/-- `TrieNode::new` from `src/trie.rs`. -/
def TrieNode.new (value : Option Char) : TrieNode :=
  .mk value [] .Intermediate none 0

mutual

/-- Number of nodes plus edges below (and including) a node; used only as
fuel for the best-first loop. -/
def TrieNode.size : TrieNode → Nat
  | .mk _ cs _ _ _ => 1 + TrieNode.sizeChildren cs

def TrieNode.sizeChildren : List (Char × TrieNode) → Nat
  | [] => 0
  | (_, m) :: rest => 1 + TrieNode.size m + TrieNode.sizeChildren rest

end

/-- Lookup in the children map (`HashMap::get` / the lookup half of `entry`). -/
def childFind (c : Char) : List (Char × TrieNode) → Option TrieNode
  | [] => none
  | (c', m) :: rest => if c' = c then some m else childFind c rest

/-- Store into the children map (the insert half of `entry().or_insert`). -/
def childSet (c : Char) (n : TrieNode) : List (Char × TrieNode) → List (Char × TrieNode)
  | [] => [(c, n)]
  | (c', m) :: rest => if c' = c then (c', n) :: rest else (c', m) :: childSet c n rest

/-- `struct Trie` from `src/trie.rs`. -/
structure Trie where
  root : TrieNode

/-- `Trie::new`. -/
def Trie.new : Trie :=
  ⟨TrieNode.new none⟩

/-- `next_node.node_score = cmp::max(next_node.node_score, score)` in
`Trie::_insert`. -/
def bumpScore (score : Int) : TrieNode → TrieNode
  | .mk v cs t ws ns => .mk v cs t ws (max ns score)

/-- The walk of `Trie::_insert`: descend along the characters, creating
missing children, raising `node_score` to at least `score` on every node
entered, then mark the last node `Final` with `word_score = score`.
The starting node itself (the root) is not raised, exactly as in the
source, where only `next_node` is updated. -/
def insertGo (score : Int) : List Char → TrieNode → TrieNode
  | [], .mk v cs _ _ ns => .mk v cs .Final (some score) ns
  | c :: rest, .mk v cs t ws ns =>
      let child :=
        match childFind c cs with
        | some m => m
        | none => TrieNode.new (some c)
      .mk v (childSet c (insertGo score rest (bumpScore score child)) cs) t ws ns

/-- `Trie::_insert`. -/
def Trie._insert (t : Trie) (word : String) (score : Int) : Trie :=
  ⟨insertGo score word.data t.root⟩

/-- `Trie::insert`. -/
def Trie.insert (t : Trie) (word : String) : Trie :=
  t._insert word 0

/-- `Trie::insert_with_score`. -/
def Trie.insert_with_score (t : Trie) (word : String) (score : Int) : Trie :=
  t._insert word score

/-- The walk of `Trie::_search`: follow the characters, recording each node
entered (the root is not recorded); `none` when a transition is missing. -/
def searchGo : List Char → TrieNode → Option (List TrieNode)
  | [], _ => some []
  | c :: rest, n =>
      match childFind c n.children with
      | some m => (searchGo rest m).map (fun l => m :: l)
      | none => none

/-- `Trie::_search`; the returned node list is the `nodes_previous` field of
the returned `OutputWrapper`. -/
def Trie._search (t : Trie) (word : String) : Option (List TrieNode) :=
  searchGo word.data t.root

/-- `OutputWrapper::join` / `QueueWrapper` path joining:
`value.unwrap_or_default()` for each recorded node. -/
def joinNodes (l : List TrieNode) : String :=
  ⟨l.map (fun n => n.value.getD (Char.ofNat 0))⟩

/-- `QueueWrapper::output_score`: the `node_score` of the last recorded
node, `0` for an empty path. -/
def queueScore (l : List TrieNode) : Int :=
  match l.getLast? with
  | some n => n.node_score
  | none => 0

/-- `OutputWrapper::output_score`: the `word_score` of the last recorded
node, `0` when absent. -/
def outputScore (l : List TrieNode) : Int :=
  match l.getLast? with
  | some n => n.word_score.getD 0
  | none => 0

/-- `leaf_type` of both wrappers: the `node_type` of the last recorded node. -/
def leafType (l : List TrieNode) : Option TrieNodeType :=
  l.getLast?.map TrieNode.node_type

/-- `QueueWrapper::children`: the children of the last recorded node. -/
def wrapChildren (l : List TrieNode) : Option (List (Char × TrieNode)) :=
  l.getLast?.map TrieNode.children

/-- `BinaryHeap::push` on the frontier: the heap is modelled as a list
sorted by descending `queueScore`, so `pop` is taking the head.  Ties keep
earlier entries first (the `BinaryHeap` tie order is arbitrary). -/
def heapPush (w : List TrieNode) : List (List TrieNode) → List (List TrieNode)
  | [] => [w]
  | x :: xs => if queueScore x < queueScore w then w :: x :: xs else x :: heapPush w xs

/-- One `while let Some(queue_wrapper) = heap.pop()` loop of
`Trie::_get_ranked_results`, on fuel.  State: frontier heap, emitted
`found_nodes` (in emission order) and `max_word_score`. -/
def rankedLoop (k : Nat) : Nat → List (List TrieNode) → List (List TrieNode) → Int →
    List (List TrieNode)
  | 0, _, found, _ => found
  | _ + 1, [], found, _ => found
  | fuel + 1, qw :: rest, found, maxws =>
      if k ≠ 0 ∧ queueScore qw < maxws ∧ k ≤ found.length then
        found
      else
        let found' := if leafType qw = some .Final then found ++ [qw] else found
        let maxws' := if leafType qw = some .Final then max maxws (queueScore qw) else maxws
        let rest' :=
          match wrapChildren qw with
          | some cs => cs.foldl (fun h p => heapPush (qw ++ [p.2]) h) rest
          | none => rest
        rankedLoop k fuel rest' found' maxws'

/-- Sorting the emitted `found_nodes` by descending `output_score`
(`BinaryHeap::into_sorted_vec().iter().rev()`); insertion sort, ties in
emission order (the heap's tie order is arbitrary). -/
def insDesc (x : List TrieNode) : List (List TrieNode) → List (List TrieNode)
  | [] => [x]
  | y :: ys => if outputScore y ≤ outputScore x then x :: y :: ys else y :: insDesc x ys

def sortDesc : List (List TrieNode) → List (List TrieNode)
  | [] => []
  | x :: xs => insDesc x (sortDesc xs)

/-- Fuel sufficient to drain a frontier consisting of one wrapper `l`. -/
def wrapperFuel (l : List TrieNode) : Nat :=
  match l.getLast? with
  | some n => n.size + 1
  | none => 1

/-- `Trie::_get_ranked_results`. -/
def Trie._get_ranked_results (t : Trie) (pfx : String) (k : Nat) : Option (List String) :=
  match t._search pfx with
  | none => none
  | some l =>
      some (((sortDesc (rankedLoop k (wrapperFuel l) [l] [] 0)).map joinNodes))

/-- `Trie::get_ranked_results`. -/
def Trie.get_ranked_results (t : Trie) (pfx : String) : Option (List String) :=
  t._get_ranked_results pfx 0

/-- `Trie::get_k_ranked_results`. -/
def Trie.get_k_ranked_results (t : Trie) (pfx : String) (k : Nat) : Option (List String) :=
  t._get_ranked_results pfx k

/-- `Trie::search`. -/
def Trie.search (t : Trie) (word : String) : Option String :=
  match t._search word with
  | some l =>
      match leafType l with
      | some .Final => some (joinNodes l)
      | _ => none
  | none => none

/-- `Trie::starts_with`. -/
def Trie.starts_with (t : Trie) (pfx : String) : Option String :=
  match t._search pfx with
  | some l => some (joinNodes l)
  | none => none

/-- A trie reachable from `Trie::new` by a sequence of
`insert_with_score` calls (with `insert w = insert_with_score w 0`). -/
def buildTrie (l : List (String × Int)) : Trie :=
  l.foldl (fun t p => t.insert_with_score p.1 p.2) Trie.new

/-- The same insertion sequence, at the level of the root node. -/
def nodeBuild (L : List (String × Int)) (n : TrieNode) : TrieNode :=
  L.foldl (fun acc q => insertGo q.2 q.1.data acc) n

/-- Follow a character path from a node to the node it denotes (the
"node anchoring the prefix" in the spec's words); specification-side
companion of `searchGo`, returning the node instead of the visited path. -/
def descend : TrieNode → List Char → Option TrieNode
  | n, [] => some n
  | n, c :: rest =>
      match childFind c n.children with
      | some m => descend m rest
      | none => none

/-- The `(node_type, word_score)` data of the node a path denotes. -/
def twAt (n : TrieNode) (p : List Char) : Option (TrieNodeType × Option Int) :=
  (descend n p).map (fun m => (m.node_type, m.word_score))

/-- The `node_score` of the node a path denotes. -/
def nsAt (n : TrieNode) (p : List Char) : Option Int :=
  (descend n p).map TrieNode.node_score

/-- Size contribution of one frontier wrapper. -/
def wrapSize (qw : List TrieNode) : Nat :=
  match qw.getLast? with
  | some n => n.size
  | none => 0

/-- Termination / fuel measure of a frontier. -/
def heapMeasure (heap : List (List TrieNode)) : Nat :=
  (heap.map (fun qw => wrapSize qw + 1)).sum

mutual

/-- All downward paths from a node (inclusive) to `Final` nodes of its
subtree, as the node lists the frontier wrappers would record. -/
def descPaths : TrieNode → List (List TrieNode)
  | .mk v cs t ws ns =>
      (if t = .Final then [[.mk v cs t ws ns]] else []) ++
        descPathsChildren (.mk v cs t ws ns) cs

/-- The same paths, collected over a children list and grafted below a
parent node. -/
def descPathsChildren : TrieNode → List (Char × TrieNode) → List (List TrieNode)
  | _, [] => []
  | n, (_, m) :: rest => (descPaths m).map (fun d => n :: d) ++ descPathsChildren n rest

end

/-- Everything a frontier wrapper will ever emit when the loop runs
without its bounded-mode break: the final-node paths of the subtree of
its last recorded node, each grafted onto the wrapper's recorded path. -/
def wEmit (qw : List TrieNode) : List (List TrieNode) :=
  match qw.getLast? with
  | none => []
  | some n => (descPaths n).map (fun d => qw.dropLast ++ d)

/-- The score of the last insertion of a word (as a character path) in an
insertion sequence, if any. -/
def lastScoreAux (L : List (String × Int)) (w : List Char) : Option Int :=
  L.foldl (fun acc q => if q.1.data = w then some q.2 else acc) none

/-- The `word_score` reported for an inserted word: the score of its
latest insertion. -/
def lastScore (L : List (String × Int)) (w : String) : Int :=
  (lastScoreAux L w.data).getD 0

/-- The character a recorded node contributes to a joined word
(`value.unwrap_or_default()`). -/
def valch (n : TrieNode) : Char :=
  n.value.getD (Char.ofNat 0)

/-- Well-formedness of a node of a trie built by insertions: children
carry the key character as their `value` and the child keys are distinct
(the latter models the `HashMap` keying). -/
inductive WFNode : TrieNode → Prop where
  | mk (v : Option Char) (cs : List (Char × TrieNode)) (t : TrieNodeType)
      (ws : Option Int) (ns : Int) :
      (∀ p ∈ cs, WFNode p.2) →
      (∀ p ∈ cs, p.2.value = some p.1) →
      (cs.map Prod.fst).Nodup →
      WFNode (.mk v cs t ws ns)

/-! ### Basic lemmas about the embedded operations -/

@[simp] theorem TrieNode.value_mk (v : Option Char) (cs : List (Char × TrieNode))
    (t : TrieNodeType) (ws : Option Int) (ns : Int) :
    (TrieNode.mk v cs t ws ns).value = v := rfl

@[simp] theorem TrieNode.children_mk (v : Option Char) (cs : List (Char × TrieNode))
    (t : TrieNodeType) (ws : Option Int) (ns : Int) :
    (TrieNode.mk v cs t ws ns).children = cs := rfl

@[simp] theorem TrieNode.node_type_mk (v : Option Char) (cs : List (Char × TrieNode))
    (t : TrieNodeType) (ws : Option Int) (ns : Int) :
    (TrieNode.mk v cs t ws ns).node_type = t := rfl

@[simp] theorem TrieNode.word_score_mk (v : Option Char) (cs : List (Char × TrieNode))
    (t : TrieNodeType) (ws : Option Int) (ns : Int) :
    (TrieNode.mk v cs t ws ns).word_score = ws := rfl

@[simp] theorem TrieNode.node_score_mk (v : Option Char) (cs : List (Char × TrieNode))
    (t : TrieNodeType) (ws : Option Int) (ns : Int) :
    (TrieNode.mk v cs t ws ns).node_score = ns := rfl

@[simp] theorem bumpScore_value (s : Int) (n : TrieNode) :
    (bumpScore s n).value = n.value := by cases n; rfl

@[simp] theorem bumpScore_children (s : Int) (n : TrieNode) :
    (bumpScore s n).children = n.children := by cases n; rfl

@[simp] theorem bumpScore_node_type (s : Int) (n : TrieNode) :
    (bumpScore s n).node_type = n.node_type := by cases n; rfl

@[simp] theorem bumpScore_word_score (s : Int) (n : TrieNode) :
    (bumpScore s n).word_score = n.word_score := by cases n; rfl

@[simp] theorem bumpScore_node_score (s : Int) (n : TrieNode) :
    (bumpScore s n).node_score = max n.node_score s := by cases n; rfl

theorem childFind_childSet_self (c : Char) (x : TrieNode) (cs : List (Char × TrieNode)) :
    childFind c (childSet c x cs) = some x := by
  induction cs with
  | nil => simp [childSet, childFind]
  | cons a rest ih =>
      by_cases h : a.1 = c
      · obtain ⟨a1, a2⟩ := a
        simp only at h
        simp [childSet, childFind, h]
      · obtain ⟨a1, a2⟩ := a
        simp only at h
        simp [childSet, childFind, h, ih]

theorem childFind_childSet_ne (c c' : Char) (x : TrieNode) (cs : List (Char × TrieNode))
    (h : c' ≠ c) : childFind c' (childSet c x cs) = childFind c' cs := by
  induction cs with
  | nil => simp [childSet, childFind, Ne.symm h]
  | cons a rest ih =>
      obtain ⟨a1, a2⟩ := a
      by_cases h1 : a1 = c
      · subst h1
        simp [childSet, childFind, Ne.symm h]
      · by_cases h2 : a1 = c'
        · subst h2
          simp [childSet, childFind, h1]
        · simp [childSet, childFind, h1, h2, ih]

theorem childSet_subset (c : Char) (x : TrieNode) (cs : List (Char × TrieNode)) :
    ∀ q ∈ childSet c x cs, q = (c, x) ∨ q ∈ cs := by
  induction cs with
  | nil => simp [childSet]
  | cons a rest ih =>
      obtain ⟨a1, a2⟩ := a
      intro q hq
      by_cases h : a1 = c
      · subst h
        simp only [childSet, if_pos rfl] at hq
        rcases List.mem_cons.mp hq with hq | hq
        · left; exact hq
        · right; exact List.mem_cons_of_mem _ hq
      · simp only [childSet, if_neg h] at hq
        rcases List.mem_cons.mp hq with hq | hq
        · right
          subst hq
          exact List.mem_cons_self _ _
        · rcases ih q hq with h' | h'
          · left; exact h'
          · right; exact List.mem_cons_of_mem _ h'

theorem childSet_keys (c : Char) (x : TrieNode) (cs : List (Char × TrieNode)) :
    (childSet c x cs).map Prod.fst =
      if c ∈ cs.map Prod.fst then cs.map Prod.fst else cs.map Prod.fst ++ [c] := by
  induction cs with
  | nil => simp [childSet]
  | cons a rest ih =>
      obtain ⟨a1, a2⟩ := a
      by_cases h : a1 = c
      · subst h
        simp [childSet]
      · simp only [childSet, if_neg h, List.map_cons]
        rw [ih]
        by_cases hmem : c ∈ rest.map Prod.fst
        · simp [hmem, Ne.symm h]
        · simp [hmem, Ne.symm h]

theorem childSet_keys_nodup (c : Char) (x : TrieNode) (cs : List (Char × TrieNode))
    (h : (cs.map Prod.fst).Nodup) : ((childSet c x cs).map Prod.fst).Nodup := by
  rw [childSet_keys]
  by_cases hmem : c ∈ cs.map Prod.fst
  · simpa [hmem] using h
  · simp only [if_neg hmem]
    exact List.Nodup.append h (List.nodup_singleton c) (by simpa using hmem)

theorem childFind_mem (c : Char) (cs : List (Char × TrieNode)) (m : TrieNode)
    (h : childFind c cs = some m) : (c, m) ∈ cs := by
  induction cs with
  | nil => simp [childFind] at h
  | cons a rest ih =>
      obtain ⟨a1, a2⟩ := a
      simp only [childFind] at h
      split at h
      · next heq =>
          subst heq
          obtain rfl : a2 = m := by injection h
          exact List.mem_cons_self _ _
      · exact List.mem_cons_of_mem _ (ih h)

theorem childFind_eq_none (c : Char) (cs : List (Char × TrieNode))
    (h : childFind c cs = none) : c ∉ cs.map Prod.fst := by
  induction cs with
  | nil => simp
  | cons a rest ih =>
      obtain ⟨a1, a2⟩ := a
      simp only [childFind] at h
      split at h
      · simp at h
      · next hne =>
          simp only [List.map_cons, List.mem_cons]
          rintro (h1 | h1)
          · exact hne h1.symm
          · exact ih h h1

@[simp] theorem descend_nil (n : TrieNode) : descend n [] = some n := rfl

theorem descend_cons (n : TrieNode) (c : Char) (rest : List Char) :
    descend n (c :: rest) = (childFind c n.children).bind (fun m => descend m rest) := by
  cases h : childFind c n.children <;> simp [descend, h]

theorem descend_append (n : TrieNode) (a b : List Char) :
    descend n (a ++ b) = (descend n a).bind (fun m => descend m b) := by
  induction a generalizing n with
  | nil => simp
  | cons c rest ih =>
      rw [List.cons_append, descend_cons, descend_cons]
      cases childFind c n.children with
      | none => rfl
      | some m => simp [ih]

theorem searchGo_length (cs : List Char) (n : TrieNode) (l : List TrieNode)
    (h : searchGo cs n = some l) : l.length = cs.length := by
  induction cs generalizing n l with
  | nil =>
      simp only [searchGo, Option.some.injEq] at h
      simp [← h]
  | cons c rest ih =>
      cases hc : childFind c n.children with
      | none => simp [searchGo, hc] at h
      | some m =>
          simp only [searchGo, hc] at h
          cases hs : searchGo rest m with
          | none => rw [hs] at h; simp at h
          | some l' =>
              rw [hs] at h
              have h' : m :: l' = l := by simpa using h
              subst h'
              simp [ih m l' hs]

theorem searchGo_isSome (cs : List Char) (n : TrieNode) :
    (searchGo cs n).isSome = (descend n cs).isSome := by
  induction cs generalizing n with
  | nil => simp [searchGo]
  | cons c rest ih =>
      simp only [searchGo, descend_cons]
      cases hc : childFind c n.children with
      | none => simp
      | some m => simp [ih]

theorem searchGo_getLast (cs : List Char) (n : TrieNode) (l : List TrieNode)
    (h : searchGo cs n = some l) (hne : cs ≠ []) : l.getLast? = descend n cs := by
  induction cs generalizing n l with
  | nil => exact absurd rfl hne
  | cons c rest ih =>
      cases hc : childFind c n.children with
      | none => simp [searchGo, hc] at h
      | some m =>
          simp only [searchGo, hc] at h
          cases hs : searchGo rest m with
          | none => rw [hs] at h; simp at h
          | some l' =>
              rw [hs] at h
              have h' : m :: l' = l := by simpa using h
              subst h'
              rw [descend_cons, hc, Option.some_bind]
              cases rest with
              | nil =>
                  simp [searchGo] at hs
                  simp [hs]
              | cons c' rest' =>
                  cases l' with
                  | nil =>
                      have := searchGo_length _ _ _ hs
                      simp at this
                  | cons x xs =>
                      rw [List.getLast?_cons_cons]
                      exact ih m (x :: xs) hs (by simp)

theorem insertGo_nil (s : Int) (v : Option Char) (cs : List (Char × TrieNode))
    (t : TrieNodeType) (ws : Option Int) (ns : Int) :
    insertGo s [] (.mk v cs t ws ns) = .mk v cs .Final (some s) ns := rfl

theorem insertGo_cons (s : Int) (c : Char) (rest : List Char) (v : Option Char)
    (cs : List (Char × TrieNode)) (t : TrieNodeType) (ws : Option Int) (ns : Int) :
    insertGo s (c :: rest) (.mk v cs t ws ns) =
      .mk v
        (childSet c
          (insertGo s rest
            (bumpScore s
              (match childFind c cs with
              | some m => m
              | none => TrieNode.new (some c))))
          cs)
        t ws ns := rfl

@[simp] theorem insertGo_value (s : Int) (w : List Char) (n : TrieNode) :
    (insertGo s w n).value = n.value := by
  cases n; cases w <;> rfl

@[simp] theorem insertGo_node_score (s : Int) (w : List Char) (n : TrieNode) :
    (insertGo s w n).node_score = n.node_score := by
  cases n; cases w <;> rfl

theorem insertGo_cons_node_type (s : Int) (c : Char) (rest : List Char) (n : TrieNode) :
    (insertGo s (c :: rest) n).node_type = n.node_type := by
  cases n; rfl

theorem insertGo_cons_word_score (s : Int) (c : Char) (rest : List Char) (n : TrieNode) :
    (insertGo s (c :: rest) n).word_score = n.word_score := by
  cases n; rfl

theorem insertGo_cons_children (s : Int) (c : Char) (rest : List Char) (n : TrieNode) :
    (insertGo s (c :: rest) n).children =
      childSet c
        (insertGo s rest
          (bumpScore s
            (match childFind c n.children with
            | some m => m
            | none => TrieNode.new (some c))))
        n.children := by
  cases n; rfl

theorem insertGo_nil_children (s : Int) (n : TrieNode) :
    (insertGo s [] n).children = n.children := by
  cases n; rfl

/-! ### Well-formedness -/

theorem WFNode.child (n : TrieNode) (hwf : WFNode n) (c : Char) (m : TrieNode)
    (hm : (c, m) ∈ n.children) : WFNode m ∧ m.value = some c := by
  cases hwf with
  | mk v cs t ws ns hwfc hval hkeys => exact ⟨hwfc (c, m) hm, hval (c, m) hm⟩

theorem WFNode.keys_nodup (n : TrieNode) (hwf : WFNode n) :
    (n.children.map Prod.fst).Nodup := by
  cases hwf with
  | mk v cs t ws ns hwfc hval hkeys => exact hkeys

theorem wf_new (v : Option Char) : WFNode (TrieNode.new v) :=
  WFNode.mk v [] .Intermediate none 0 (by simp) (by simp) (by simp)

theorem wf_bumpScore (s : Int) (n : TrieNode) (hwf : WFNode n) :
    WFNode (bumpScore s n) := by
  cases hwf with
  | mk v cs t ws ns hwfc hval hkeys => exact WFNode.mk v cs t ws (max ns s) hwfc hval hkeys

theorem wf_insertGo (s : Int) (w : List Char) (n : TrieNode) (hwf : WFNode n) :
    WFNode (insertGo s w n) := by
  induction w generalizing n with
  | nil =>
      cases hwf with
      | mk v cs t ws ns hwfc hval hkeys =>
          exact WFNode.mk v cs .Final (some s) ns hwfc hval hkeys
  | cons c rest ih =>
      cases hwf with
      | mk v cs t ws ns hwfc hval hkeys =>
          have hchildwf : WFNode (match childFind c cs with
              | some m => m
              | none => TrieNode.new (some c)) := by
            cases hf : childFind c cs with
            | some m => exact hwfc (c, m) (childFind_mem c cs m hf)
            | none => exact wf_new (some c)
          have hchildval : (match childFind c cs with
              | some m => m
              | none => TrieNode.new (some c)).value = some c := by
            cases hf : childFind c cs with
            | some m => exact (hval (c, m) (childFind_mem c cs m hf))
            | none => rfl
          refine WFNode.mk v _ t ws ns ?_ ?_ (childSet_keys_nodup c _ cs hkeys)
          · intro q hq
            rcases childSet_subset c _ cs q hq with hq' | hq'
            · rw [hq']
              exact ih _ (wf_bumpScore s _ hchildwf)
            · exact hwfc q hq'
          · intro q hq
            rcases childSet_subset c _ cs q hq with hq' | hq'
            · rw [hq']
              simp [hchildval]
            · exact hval q hq'

/-! ### The effect of one insertion, seen through `descend` -/

theorem twAt_nil (n : TrieNode) : twAt n [] = some (n.node_type, n.word_score) := by
  simp [twAt]

theorem twAt_cons (n : TrieNode) (c : Char) (rest : List Char) :
    twAt n (c :: rest) = (childFind c n.children).bind (fun m => twAt m rest) := by
  cases h : childFind c n.children <;> simp [twAt, descend_cons, h]

theorem descend_bump (s : Int) (m : TrieNode) (p : List Char) :
    descend (bumpScore s m) p = if p = [] then some (bumpScore s m) else descend m p := by
  cases p with
  | nil => simp
  | cons c rest => simp [descend_cons]

theorem twAt_bump (s : Int) (m : TrieNode) (p : List Char) :
    twAt (bumpScore s m) p = twAt m p := by
  cases p with
  | nil => simp [twAt_nil]
  | cons c rest => rw [twAt_cons, twAt_cons, bumpScore_children]

theorem twAt_insertGo_self (s : Int) (w : List Char) (n : TrieNode) :
    twAt (insertGo s w n) w = some (.Final, some s) := by
  induction w generalizing n with
  | nil =>
      cases n with
      | mk v cs t ws ns => simp [insertGo_nil, twAt_nil]
  | cons c rest ih =>
      rw [twAt_cons, insertGo_cons_children, childFind_childSet_self, Option.some_bind]
      exact ih _

open Classical in
theorem twAt_insertGo (s : Int) (w p : List Char) (n : TrieNode) (hpw : p ≠ w) :
    twAt (insertGo s w n) p =
      if p <+: w ∧ descend n p = none then some (.Intermediate, none)
      else twAt n p := by
  induction w generalizing p n with
  | nil =>
      have hcond : ¬(p <+: ([] : List Char) ∧ descend n p = none) := by
        rintro ⟨hpre, -⟩
        exact hpw (List.prefix_nil.mp hpre)
      rw [if_neg hcond]
      cases p with
      | nil => exact absurd rfl hpw
      | cons c p' =>
          rw [twAt_cons, twAt_cons, insertGo_nil_children]
  | cons c w' ih =>
      cases p with
      | nil =>
          have hcond : ¬((([] : List Char) <+: (c :: w')) ∧ descend n [] = none) := by simp
          rw [if_neg hcond, twAt_nil, twAt_nil, insertGo_cons_node_type, insertGo_cons_word_score]
      | cons c₀ p' =>
          by_cases hc : c₀ = c
          · subst hc
            have hp'w' : p' ≠ w' := fun h => hpw (by rw [h])
            rw [twAt_cons, insertGo_cons_children]
            cases hf : childFind c₀ n.children with
            | some m =>
                rw [childFind_childSet_self, Option.some_bind]
                dsimp only
                rw [ih p' _ hp'w']
                have hnone : (descend (bumpScore s m) p' = none) = (descend m p' = none) := by
                  cases p' with
                  | nil => simp [descend_bump]
                  | cons d p'' => simp [descend_bump]
                have hR1 : twAt n (c₀ :: p') = twAt m p' := by
                  rw [twAt_cons, hf, Option.some_bind]
                have hR2 : descend n (c₀ :: p') = descend m p' := by
                  rw [descend_cons, hf, Option.some_bind]
                simp only [hnone, twAt_bump, hR1, hR2, List.cons_prefix_cons, true_and]
            | none =>
                rw [childFind_childSet_self, Option.some_bind]
                dsimp only
                rw [ih p' _ hp'w']
                have hrhs1 : twAt n (c₀ :: p') = none := by
                  rw [twAt_cons, hf]; rfl
                have hrhs2 : descend n (c₀ :: p') = none := by
                  rw [descend_cons, hf]; rfl
                simp only [hrhs1, hrhs2, List.cons_prefix_cons, true_and]
                cases p' with
                | nil =>
                    simp [descend_bump, twAt_nil, TrieNode.new, List.nil_prefix]
                | cons d p'' =>
                    have h1 : descend (bumpScore s (TrieNode.new (some c₀))) (d :: p'') = none := by
                      simp [descend_cons, TrieNode.new, childFind]
                    have h2 : twAt (bumpScore s (TrieNode.new (some c₀))) (d :: p'') = none := by
                      rw [twAt_cons]
                      simp [TrieNode.new, childFind]
                    simp only [h1, h2, and_true]
          · have hcond : ¬((c₀ :: p') <+: (c :: w') ∧ descend n (c₀ :: p') = none) := by
              rintro ⟨hpre, -⟩
              exact hc (List.cons_prefix_cons.mp hpre).1
            rw [if_neg hcond, twAt_cons, twAt_cons, insertGo_cons_children,
              childFind_childSet_ne c c₀ _ _ hc]

theorem descend_insertGo_cons_self (s : Int) (c : Char) (w' : List Char) (n : TrieNode)
    (p' : List Char) :
    descend (insertGo s (c :: w') n) (c :: p') =
      descend
        (insertGo s w'
          (bumpScore s
            (match childFind c n.children with
            | some m => m
            | none => TrieNode.new (some c))))
        p' := by
  rw [descend_cons, insertGo_cons_children, childFind_childSet_self, Option.some_bind]

theorem descend_insertGo_cons_ne (s : Int) (c c₀ : Char) (w' : List Char) (n : TrieNode)
    (p' : List Char) (hc : c₀ ≠ c) :
    descend (insertGo s (c :: w') n) (c₀ :: p') = descend n (c₀ :: p') := by
  rw [descend_cons, insertGo_cons_children, childFind_childSet_ne c c₀ _ _ hc, ← descend_cons]

theorem descend_insertGo_mono (s : Int) (w : List Char) :
    ∀ (p : List Char) (n m : TrieNode), descend n p = some m →
      ∃ m', descend (insertGo s w n) p = some m' ∧ m.node_score ≤ m'.node_score := by
  induction w with
  | nil =>
      intro p n m h
      cases p with
      | nil =>
          obtain rfl : n = m := by simpa using h
          exact ⟨insertGo s [] n, by simp, by simp⟩
      | cons c p' =>
          refine ⟨m, ?_, le_refl _⟩
          rw [descend_cons, insertGo_nil_children, ← descend_cons]
          exact h
  | cons c w' ih =>
      intro p n m h
      cases p with
      | nil =>
          obtain rfl : n = m := by simpa using h
          exact ⟨insertGo s (c :: w') n, by simp, by simp⟩
      | cons c₀ p' =>
          by_cases hc : c₀ = c
          · subst hc
            rw [descend_cons] at h
            cases hf : childFind c₀ n.children with
            | none => rw [hf] at h; simp at h
            | some m₀ =>
                rw [hf, Option.some_bind] at h
                have hbump : ∃ m'', descend (bumpScore s m₀) p' = some m'' ∧
                    m.node_score ≤ m''.node_score := by
                  cases p' with
                  | nil =>
                      obtain rfl : m₀ = m := by simpa using h
                      refine ⟨bumpScore s m₀, by simp [descend_bump], ?_⟩
                      rw [bumpScore_node_score]
                      exact le_max_left _ _
                  | cons d p'' =>
                      exact ⟨m, by rw [descend_bump]; simpa using h, le_refl _⟩
                obtain ⟨m'', hm'', hle''⟩ := hbump
                obtain ⟨m', hm', hle'⟩ := ih p' _ _ hm''
                refine ⟨m', ?_, le_trans hle'' hle'⟩
                rw [descend_insertGo_cons_self, hf]
                exact hm'
          · refine ⟨m, ?_, le_refl _⟩
            rw [descend_insertGo_cons_ne s c c₀ w' n p' hc]
            exact h

theorem descend_insertGo_path (s : Int) (w : List Char) :
    ∀ (p : List Char) (n : TrieNode), p <+: w → p ≠ [] →
      ∃ m', descend (insertGo s w n) p = some m' ∧ s ≤ m'.node_score := by
  induction w with
  | nil =>
      intro p n hpre hne
      exact absurd (List.prefix_nil.mp hpre) hne
  | cons c w' ih =>
      intro p n hpre hne
      cases p with
      | nil => exact absurd rfl hne
      | cons c₀ p' =>
          obtain ⟨rfl, hpre'⟩ := List.cons_prefix_cons.mp hpre
          cases p' with
          | nil =>
              refine ⟨insertGo s w'
                (bumpScore s
                  (match childFind c₀ n.children with
                  | some m => m
                  | none => TrieNode.new (some c₀))), ?_, ?_⟩
              · rw [descend_insertGo_cons_self]
                simp
              · rw [insertGo_node_score]
                cases hf : childFind c₀ n.children <;> simp
          | cons d p'' =>
              obtain ⟨m', hm', hs'⟩ := ih (d :: p'') (bumpScore s
                (match childFind c₀ n.children with
                | some m => m
                | none => TrieNode.new (some c₀))) hpre' (by simp)
              refine ⟨m', ?_, hs'⟩
              rw [descend_insertGo_cons_self]
              exact hm'

/-! ### Sequences of insertions -/

theorem nodeBuild_nil (n : TrieNode) : nodeBuild [] n = n := rfl

theorem nodeBuild_cons (q : String × Int) (L : List (String × Int)) (n : TrieNode) :
    nodeBuild (q :: L) n = nodeBuild L (insertGo q.2 q.1.data n) := rfl

theorem buildTrie_root (L : List (String × Int)) :
    (buildTrie L).root = nodeBuild L (TrieNode.new none) := by
  suffices h : ∀ t : Trie,
      (L.foldl (fun t p => t.insert_with_score p.1 p.2) t).root = nodeBuild L t.root by
    exact h Trie.new
  induction L with
  | nil => intro t; rfl
  | cons q L' ih =>
      intro t
      rw [List.foldl_cons, ih, nodeBuild_cons]
      rfl

theorem twAt_eq_none (n : TrieNode) (p : List Char) :
    twAt n p = none ↔ descend n p = none := by
  simp [twAt]

theorem twAt_eq_some (n : TrieNode) (p : List Char) (x : TrieNodeType × Option Int) :
    twAt n p = some x ↔
      ∃ m, descend n p = some m ∧ m.node_type = x.1 ∧ m.word_score = x.2 := by
  simp only [twAt, Option.map_eq_some']
  constructor
  · rintro ⟨m, hm, rfl⟩
    exact ⟨m, hm, rfl, rfl⟩
  · rintro ⟨m, hm, h1, h2⟩
    refine ⟨m, hm, ?_⟩
    cases x
    simp_all

theorem lastScoreAux_foldl (p : List Char) (L : List (String × Int)) :
    ∀ acc : Option Int,
      L.foldl (fun a q => if q.1.data = p then some q.2 else a) acc =
        match lastScoreAux L p with
        | some s => some s
        | none => acc := by
  induction L with
  | nil => intro acc; rfl
  | cons q L' ih =>
      intro acc
      rw [List.foldl_cons, ih]
      have hq : lastScoreAux (q :: L') p =
          match lastScoreAux L' p with
          | some s => some s
          | none => if q.1.data = p then some q.2 else none := by
        show L'.foldl _ (if q.1.data = p then some q.2 else none) = _
        rw [ih]
      rw [hq]
      cases lastScoreAux L' p with
      | some s => rfl
      | none =>
          by_cases h : q.1.data = p <;> simp [h]

theorem lastScoreAux_cons (q : String × Int) (L : List (String × Int)) (p : List Char) :
    lastScoreAux (q :: L) p =
      match lastScoreAux L p with
      | some s => some s
      | none => if q.1.data = p then some q.2 else none := by
  show L.foldl _ (if q.1.data = p then some q.2 else none) = _
  rw [lastScoreAux_foldl]

theorem lastScoreAux_none_iff (L : List (String × Int)) (p : List Char) :
    lastScoreAux L p = none ↔ ∀ q ∈ L, q.1.data ≠ p := by
  induction L with
  | nil => simp [lastScoreAux]
  | cons q L' ih =>
      rw [lastScoreAux_cons]
      cases hl : lastScoreAux L' p with
      | some s =>
          constructor
          · intro h
            simp at h
          · intro h
            have h2 : lastScoreAux L' p = none :=
              ih.mpr fun q' hq' => h q' (List.mem_cons_of_mem _ hq')
            rw [h2] at hl
            exact Option.noConfusion hl
      | none =>
          simp only []
          constructor
          · intro h
            intro q' hq'
            rcases List.mem_cons.mp hq' with hq' | hq'
            · subst hq'
              intro hp
              rw [if_pos hp] at h
              exact Option.some_ne_none _ h
            · exact (ih.mp hl) q' hq'
          · intro h
            rw [if_neg (h q (List.mem_cons_self _ _))]

theorem wf_nodeBuild (L : List (String × Int)) :
    ∀ n, WFNode n → WFNode (nodeBuild L n) := by
  induction L with
  | nil => intro n h; exact h
  | cons q L' ih =>
      intro n h
      rw [nodeBuild_cons]
      exact ih _ (wf_insertGo q.2 q.1.data n h)

theorem nodeBuild_mono (L : List (String × Int)) :
    ∀ (n : TrieNode) (p : List Char) (m : TrieNode), descend n p = some m →
      ∃ m', descend (nodeBuild L n) p = some m' ∧ m.node_score ≤ m'.node_score := by
  induction L with
  | nil => intro n p m h; exact ⟨m, h, le_refl _⟩
  | cons q L' ih =>
      intro n p m h
      obtain ⟨m₁, hm₁, hle₁⟩ := descend_insertGo_mono q.2 q.1.data p n m h
      obtain ⟨m', hm', hle'⟩ := ih _ p m₁ hm₁
      exact ⟨m', by rw [nodeBuild_cons]; exact hm', le_trans hle₁ hle'⟩

theorem nodeBuild_path (L : List (String × Int)) :
    ∀ (n : TrieNode) (q : String × Int), q ∈ L → ∀ p : List Char, p ≠ [] →
      p <+: q.1.data →
      ∃ m', descend (nodeBuild L n) p = some m' ∧ q.2 ≤ m'.node_score := by
  induction L with
  | nil => intro n q hq; cases hq
  | cons q₀ L' ih =>
      intro n q hq p hne hpre
      rcases List.mem_cons.mp hq with hq | hq
      · subst hq
        obtain ⟨m₁, hm₁, hs₁⟩ := descend_insertGo_path q.2 q.1.data p n hpre hne
        obtain ⟨m', hm', hle'⟩ := nodeBuild_mono L' _ p m₁ hm₁
        exact ⟨m', by rw [nodeBuild_cons]; exact hm', le_trans hs₁ hle'⟩
      · obtain ⟨m', hm', hle'⟩ := ih (insertGo q₀.2 q₀.1.data n) q hq p hne hpre
        exact ⟨m', by rw [nodeBuild_cons]; exact hm', hle'⟩

theorem nodeBuild_tw_pres (L : List (String × Int)) :
    ∀ (n : TrieNode) (p : List Char) (x : TrieNodeType × Option Int),
      (∀ q ∈ L, q.1.data ≠ p) → twAt n p = some x →
      twAt (nodeBuild L n) p = some x := by
  induction L with
  | nil => intro n p x _ h; exact h
  | cons q L' ih =>
      intro n p x hall h
      rw [nodeBuild_cons]
      refine ih _ p x (fun q' hq' => hall q' (List.mem_cons_of_mem _ hq')) ?_
      rw [twAt_insertGo q.2 q.1.data p n (Ne.symm (hall q (List.mem_cons_self _ _)))]
      rw [if_neg, h]
      rintro ⟨-, hdesc⟩
      rw [← twAt_eq_none] at hdesc
      rw [hdesc] at h
      exact Option.noConfusion h

theorem nodeBuild_tw_some (L : List (String × Int)) :
    ∀ (n : TrieNode) (p : List Char) (s : Int), lastScoreAux L p = some s →
      twAt (nodeBuild L n) p = some (.Final, some s) := by
  induction L with
  | nil => intro n p s h; exact absurd h (by simp [lastScoreAux])
  | cons q L' ih =>
      intro n p s h
      rw [lastScoreAux_cons] at h
      rw [nodeBuild_cons]
      cases hl : lastScoreAux L' p with
      | some s' =>
          rw [hl] at h
          simp only [Option.some.injEq] at h
          subst h
          exact ih _ p s' hl
      | none =>
          rw [hl] at h
          simp only [] at h
          by_cases hq : q.1.data = p
          · rw [if_pos hq] at h
            obtain rfl : q.2 = s := by injection h
            refine nodeBuild_tw_pres L' _ p _ ((lastScoreAux_none_iff L' p).mp hl) ?_
            rw [← hq]
            exact twAt_insertGo_self q.2 q.1.data n
          · rw [if_neg hq] at h
            exact Option.noConfusion h

theorem nodeBuild_tw_new (L : List (String × Int)) :
    ∀ (n : TrieNode) (p : List Char), lastScoreAux L p = none → twAt n p = none →
      twAt (nodeBuild L n) p = none ∨
        twAt (nodeBuild L n) p = some (.Intermediate, none) := by
  induction L with
  | nil => intro n p _ h; exact Or.inl h
  | cons q L' ih =>
      intro n p hlsa hnone
      rw [lastScoreAux_cons] at hlsa
      have hl : lastScoreAux L' p = none := by
        cases hl : lastScoreAux L' p with
        | some s => rw [hl] at hlsa; exact Option.noConfusion hlsa
        | none => rfl
      rw [hl] at hlsa
      simp only [] at hlsa
      have hq : q.1.data ≠ p := by
        intro hq
        rw [if_pos hq] at hlsa
        exact Option.noConfusion hlsa
      rw [nodeBuild_cons]
      rw [twAt_eq_none] at hnone
      by_cases hpre : p <+: q.1.data
      · right
        refine nodeBuild_tw_pres L' _ p _ ((lastScoreAux_none_iff L' p).mp hl) ?_
        rw [twAt_insertGo q.2 q.1.data p n (Ne.symm hq), if_pos ⟨hpre, hnone⟩]
      · have : twAt (insertGo q.2 q.1.data n) p = none := by
          rw [twAt_insertGo q.2 q.1.data p n (Ne.symm hq), if_neg (by rintro ⟨h1, -⟩; exact hpre h1)]
          rw [twAt_eq_none]
          exact hnone
        exact ih _ p hl this

theorem nodeBuild_value (L : List (String × Int)) :
    ∀ n : TrieNode, (nodeBuild L n).value = n.value := by
  induction L with
  | nil => intro n; rfl
  | cons q L' ih =>
      intro n
      rw [nodeBuild_cons, ih]
      simp

theorem nodeBuild_node_type (L : List (String × Int)) (hL : ∀ q ∈ L, q.1.data ≠ []) :
    ∀ n : TrieNode, (nodeBuild L n).node_type = n.node_type := by
  induction L with
  | nil => intro n; rfl
  | cons q L' ih =>
      intro n
      rw [nodeBuild_cons, ih (fun q' hq' => hL q' (List.mem_cons_of_mem _ hq'))]
      cases hw : q.1.data with
      | nil => exact absurd hw (hL q (List.mem_cons_self _ _))
      | cons c rest => exact insertGo_cons_node_type q.2 c rest n

theorem searchGo_join (cs : List Char) (n : TrieNode) (l : List TrieNode) (hwf : WFNode n)
    (h : searchGo cs n = some l) :
    l.map (fun m => m.value.getD (Char.ofNat 0)) = cs := by
  induction cs generalizing n l with
  | nil =>
      simp only [searchGo, Option.some.injEq] at h
      simp [← h]
  | cons c rest ih =>
      cases hf : childFind c n.children with
      | none => simp [searchGo, hf] at h
      | some m =>
          simp only [searchGo, hf] at h
          cases hs : searchGo rest m with
          | none => rw [hs] at h; simp at h
          | some l' =>
              rw [hs] at h
              have h' : m :: l' = l := by simpa using h
              subst h'
              obtain ⟨hwfm, hval⟩ := WFNode.child n hwf c m (childFind_mem c n.children m hf)
              simp [hval, ih m l' hwfm hs]

theorem join_of_search (t : Trie) (w : String) (l : List TrieNode) (hwf : WFNode t.root)
    (h : t._search w = some l) : joinNodes l = w := by
  have hj := searchGo_join w.data t.root l hwf h
  unfold joinNodes
  rw [hj]

theorem wf_buildTrie (L : List (String × Int)) : WFNode (buildTrie L).root := by
  rw [buildTrie_root]
  exact wf_nodeBuild L _ (wf_new none)

theorem string_data_nil (w : String) : w.data = [] ↔ w = "" := by
  cases w with
  | mk d =>
      constructor
      · intro h
        rw [show d = ([] : List Char) from h]
      · intro h
        rw [h]

theorem lastScoreAux_of_mem (L : List (String × Int)) (w : String) (s : Int)
    (h : (w, s) ∈ L) : ∃ s', lastScoreAux L w.data = some s' := by
  cases hl : lastScoreAux L w.data with
  | some s' => exact ⟨s', rfl⟩
  | none =>
      have := (lastScoreAux_none_iff L w.data).mp hl (w, s) h
      simp at this

/-! ### The best-first frontier: permutation and measure lemmas -/

theorem heapPush_perm (w : List TrieNode) (h : List (List TrieNode)) :
    (heapPush w h).Perm (w :: h) := by
  induction h with
  | nil => exact List.Perm.refl _
  | cons x xs ih =>
      unfold heapPush
      by_cases hc : queueScore x < queueScore w
      · rw [if_pos hc]
      · rw [if_neg hc]
        exact (List.Perm.cons x ih).trans (List.Perm.swap w x xs)

theorem foldl_heapPush_perm (cs : List (Char × TrieNode)) (f : Char × TrieNode → List TrieNode) :
    ∀ h : List (List TrieNode),
      (cs.foldl (fun acc q => heapPush (f q) acc) h).Perm ((cs.map f) ++ h) := by
  induction cs with
  | nil => intro h; exact List.Perm.refl _
  | cons q cs' ih =>
      intro h
      rw [List.foldl_cons]
      refine (ih (heapPush (f q) h)).trans ?_
      refine (List.Perm.append_left (cs'.map f) (heapPush_perm (f q) h)).trans ?_
      rw [List.map_cons]
      exact List.perm_middle

theorem heapMeasure_perm (h₁ h₂ : List (List TrieNode)) (hp : h₁.Perm h₂) :
    heapMeasure h₁ = heapMeasure h₂ :=
  List.Perm.sum_eq (hp.map _)

theorem heapMeasure_nil : heapMeasure [] = 0 := rfl

theorem heapMeasure_cons (qw : List TrieNode) (h : List (List TrieNode)) :
    heapMeasure (qw :: h) = wrapSize qw + 1 + heapMeasure h := by
  simp [heapMeasure]

theorem heapMeasure_append (a b : List (List TrieNode)) :
    heapMeasure (a ++ b) = heapMeasure a + heapMeasure b := by
  simp [heapMeasure]

theorem wrapSize_concat (pre : List TrieNode) (m : TrieNode) :
    wrapSize (pre ++ [m]) = m.size := by
  simp [wrapSize, List.getLast?_concat]

theorem sizeChildren_eq (cs : List (Char × TrieNode)) :
    TrieNode.sizeChildren cs = (cs.map (fun q => q.2.size + 1)).sum := by
  induction cs with
  | nil => rfl
  | cons q rest ih =>
      obtain ⟨c, m⟩ := q
      simp [TrieNode.sizeChildren, ih]
      omega

/-! ### Draining the result collection: sortedness -/

theorem insDesc_perm (x : List TrieNode) (l : List (List TrieNode)) :
    (insDesc x l).Perm (x :: l) := by
  induction l with
  | nil => exact List.Perm.refl _
  | cons y ys ih =>
      unfold insDesc
      by_cases hc : outputScore y ≤ outputScore x
      · rw [if_pos hc]
      · rw [if_neg hc]
        exact (List.Perm.cons y ih).trans (List.Perm.swap x y ys)

theorem sortDesc_perm (l : List (List TrieNode)) : (sortDesc l).Perm l := by
  induction l with
  | nil => exact List.Perm.refl _
  | cons x xs ih =>
      exact (insDesc_perm x (sortDesc xs)).trans (List.Perm.cons x ih)

theorem mem_insDesc (x z : List TrieNode) (l : List (List TrieNode))
    (h : z ∈ insDesc x l) : z = x ∨ z ∈ l := by
  have h2 := (insDesc_perm x l).mem_iff.mp h
  simpa using h2

theorem insDesc_sorted (x : List TrieNode) (l : List (List TrieNode))
    (h : l.Pairwise (fun a b => outputScore b ≤ outputScore a)) :
    (insDesc x l).Pairwise (fun a b => outputScore b ≤ outputScore a) := by
  induction l with
  | nil => simp [insDesc]
  | cons y ys ih =>
      unfold insDesc
      rcases List.pairwise_cons.mp h with ⟨hy, hys⟩
      by_cases hc : outputScore y ≤ outputScore x
      · rw [if_pos hc]
        refine List.Pairwise.cons ?_ h
        intro z hz
        rcases List.mem_cons.mp hz with hz | hz
        · rw [hz]; exact hc
        · exact le_trans (hy z hz) hc
      · rw [if_neg hc]
        refine List.Pairwise.cons ?_ (ih hys)
        intro z hz
        rcases mem_insDesc x z ys hz with hz | hz
        · rw [hz]
          exact le_of_lt (lt_of_not_le hc)
        · exact hy z hz

theorem sortDesc_sorted (l : List (List TrieNode)) :
    (sortDesc l).Pairwise (fun a b => outputScore b ≤ outputScore a) := by
  induction l with
  | nil => simp [sortDesc]
  | cons x xs ih => exact insDesc_sorted x (sortDesc xs) ih

/-! ### What a frontier wrapper eventually emits -/

theorem childFind_of_mem_nodup (cs : List (Char × TrieNode)) (c : Char) (m : TrieNode)
    (hnd : (cs.map Prod.fst).Nodup) (hmem : (c, m) ∈ cs) : childFind c cs = some m := by
  induction cs with
  | nil => cases hmem
  | cons a rest ih =>
      obtain ⟨a1, a2⟩ := a
      rcases List.mem_cons.mp hmem with hmem | hmem
      · have h1 : c = a1 := congrArg Prod.fst hmem
        have h2 : m = a2 := congrArg Prod.snd hmem
        subst h1
        subst h2
        simp [childFind]
      · have hne : a1 ≠ c := by
          rintro rfl
          have hin : a1 ∈ rest.map Prod.fst := List.mem_map.mpr ⟨(a1, m), hmem, rfl⟩
          exact (List.nodup_cons.mp hnd).1 hin
        simp only [childFind, if_neg hne]
        exact ih (List.nodup_cons.mp hnd).2 hmem

theorem descPathsChildren_eq (n : TrieNode) (cs : List (Char × TrieNode)) :
    descPathsChildren n cs = cs.flatMap (fun q => (descPaths q.2).map (fun d => n :: d)) := by
  induction cs with
  | nil => rfl
  | cons q rest ih =>
      obtain ⟨c, m⟩ := q
      rw [descPathsChildren, List.flatMap_cons, ih]

theorem descPaths_eq (v : Option Char) (cs : List (Char × TrieNode)) (t : TrieNodeType)
    (ws : Option Int) (ns : Int) :
    descPaths (.mk v cs t ws ns) =
      (if t = .Final then [[TrieNode.mk v cs t ws ns]] else []) ++
        cs.flatMap (fun q => (descPaths q.2).map
          (fun d => TrieNode.mk v cs t ws ns :: d)) := by
  rw [descPaths, descPathsChildren_eq]

theorem wEmit_nil : wEmit [] = [] := rfl

theorem wEmit_concat (pre : List TrieNode) (n : TrieNode) :
    wEmit (pre ++ [n]) = (descPaths n).map (fun d => pre ++ d) := by
  simp [wEmit, List.getLast?_concat, List.dropLast_concat]

theorem wEmit_expand (pre : List TrieNode) (v : Option Char) (cs : List (Char × TrieNode))
    (t : TrieNodeType) (ws : Option Int) (ns : Int) :
    wEmit (pre ++ [TrieNode.mk v cs t ws ns]) =
      (if t = .Final then [pre ++ [TrieNode.mk v cs t ws ns]] else []) ++
        cs.flatMap (fun q => wEmit ((pre ++ [TrieNode.mk v cs t ws ns]) ++ [q.2])) := by
  rw [wEmit_concat, descPaths_eq, List.map_append]
  congr 1
  · by_cases ht : t = TrieNodeType.Final <;> simp [ht]
  · rw [List.map_flatMap]
    congr 1
    funext q
    rw [wEmit_concat, List.map_map]
    congr 1
    funext d
    simp

/-! ### The unbounded loop: a full traversal -/

theorem rankedLoop_zero :
    ∀ (fuel : Nat) (heap found : List (List TrieNode)) (maxws : Int),
      heapMeasure heap ≤ fuel →
      (rankedLoop 0 fuel heap found maxws).Perm (found ++ heap.flatMap wEmit) := by
  intro fuel
  induction fuel with
  | zero =>
      intro heap found maxws hm
      have hheap : heap = [] := by
        cases heap with
        | nil => rfl
        | cons qw rest =>
            rw [heapMeasure_cons] at hm
            omega
      subst hheap
      simp [rankedLoop]
  | succ fuel ih =>
      intro heap found maxws hm
      cases heap with
      | nil => simp [rankedLoop]
      | cons qw rest =>
          have hstep : rankedLoop 0 (fuel + 1) (qw :: rest) found maxws =
              rankedLoop 0 fuel
                (match wrapChildren qw with
                | some cs => cs.foldl (fun h p => heapPush (qw ++ [p.2]) h) rest
                | none => rest)
                (if leafType qw = some .Final then found ++ [qw] else found)
                (if leafType qw = some .Final then max maxws (queueScore qw) else maxws) := by
            rw [rankedLoop, if_neg (by simp)]
          rw [hstep]
          cases hlast : qw.getLast? with
          | none =>
              have hleaf : leafType qw = none := by simp [leafType, hlast]
              have hch : wrapChildren qw = none := by simp [wrapChildren, hlast]
              have hwe : wEmit qw = [] := by simp [wEmit, hlast]
              rw [hleaf, hch]
              have hm' : heapMeasure rest ≤ fuel := by
                rw [heapMeasure_cons] at hm
                omega
              simp only [reduceCtorEq, if_false]
              refine (ih rest found maxws hm').trans ?_
              rw [List.flatMap_cons, hwe, List.nil_append]
          | some n =>
              have hne : qw ≠ [] := by
                intro hh
                rw [hh] at hlast
                exact Option.noConfusion hlast
              have hqw : qw.dropLast ++ [n] = qw := by
                have h2 := List.getLast?_eq_getLast qw hne
                rw [hlast] at h2
                have h3 : n = qw.getLast hne := by injection h2
                rw [h3]
                exact List.dropLast_append_getLast hne
              have hleaf : leafType qw = some n.node_type := by simp [leafType, hlast]
              have hqs : wrapSize qw = n.size := by simp [wrapSize, hlast]
              have hch : wrapChildren qw = some n.children := by simp [wrapChildren, hlast]
              cases n with
              | mk v cs t ws ns =>
                  rw [hleaf, hch]
                  simp only [TrieNode.node_type_mk, TrieNode.children_mk]
                  have hwe : wEmit qw = (if t = .Final then [qw] else []) ++
                      cs.flatMap (fun q => wEmit (qw ++ [q.2])) := by
                    conv_lhs => rw [← hqw]
                    rw [wEmit_expand, hqw]
                  have hmeas : heapMeasure
                      (cs.foldl (fun h p => heapPush (qw ++ [p.2]) h) rest) ≤ fuel := by
                    rw [heapMeasure_perm _ _ (foldl_heapPush_perm cs _ rest),
                      heapMeasure_append]
                    have hcm : heapMeasure (cs.map (fun q => qw ++ [q.2])) =
                        TrieNode.sizeChildren cs := by
                      rw [heapMeasure, List.map_map, sizeChildren_eq]
                      simp only [Function.comp_def, wrapSize_concat]
                    rw [hcm]
                    rw [heapMeasure_cons, hqs] at hm
                    rw [show (TrieNode.mk v cs t ws ns).size = 1 + TrieNode.sizeChildren cs
                      from rfl] at hm
                    omega
                  have hfound : (if some t = some TrieNodeType.Final then found ++ [qw]
                      else found) = found ++ (if t = TrieNodeType.Final then [qw] else []) := by
                    by_cases ht : t = TrieNodeType.Final <;> simp [ht]
                  rw [hfound]
                  refine (ih _ _ _ hmeas).trans ?_
                  have hperm2 : ((cs.foldl (fun h p => heapPush (qw ++ [p.2]) h)
                      rest).flatMap wEmit).Perm
                      (cs.flatMap (fun q => wEmit (qw ++ [q.2])) ++ rest.flatMap wEmit) := by
                    refine ((foldl_heapPush_perm cs _ rest).flatMap_right wEmit).trans ?_
                    rw [List.flatMap_append, List.flatMap_map]
                  refine (List.Perm.append_left _ hperm2).trans ?_
                  rw [List.flatMap_cons, hwe]
                  simp [List.append_assoc]

/-! ### Characterizing the emitted paths -/

theorem joinNodes_eq (l : List TrieNode) : joinNodes l = ⟨l.map valch⟩ := rfl

theorem descPaths_shape (n : TrieNode) : ∀ d ∈ descPaths n, ∃ tail, d = n :: tail := by
  cases n with
  | mk v cs t ws ns =>
      intro d hd
      rw [descPaths_eq] at hd
      rcases List.mem_append.mp hd with hd | hd
      · by_cases ht : t = TrieNodeType.Final
        · rw [if_pos ht] at hd
          have : d = [TrieNode.mk v cs t ws ns] := by simpa using hd
          exact ⟨[], this⟩
        · rw [if_neg ht] at hd
          cases hd
      · rcases List.mem_flatMap.mp hd with ⟨q, hq, hd⟩
        rcases List.mem_map.mp hd with ⟨d', hd', rfl⟩
        exact ⟨d', rfl⟩

theorem descPaths_sound (n : TrieNode) (hwf : WFNode n) :
    ∀ d ∈ descPaths n, ∃ (sfx : List Char) (m : TrieNode),
      descend n sfx = some m ∧ m.node_type = .Final ∧ d.getLast? = some m ∧
      d.map valch = valch n :: sfx := by
  induction hwf with
  | mk v cs t ws ns hwfc hval hkeys ih =>
      intro d hd
      rw [descPaths_eq] at hd
      rcases List.mem_append.mp hd with hd | hd
      · by_cases ht : t = TrieNodeType.Final
        · rw [if_pos ht] at hd
          have hd' : d = [TrieNode.mk v cs t ws ns] := by simpa using hd
          subst hd'
          exact ⟨[], TrieNode.mk v cs t ws ns, by simp, by simp [ht], by simp, by simp⟩
        · rw [if_neg ht] at hd
          cases hd
      · rcases List.mem_flatMap.mp hd with ⟨q, hq, hd⟩
        rcases List.mem_map.mp hd with ⟨d', hd', rfl⟩
        obtain ⟨sfx', m, hdesc, hfin, hlast, hmap⟩ := ih q hq d' hd'
        refine ⟨q.1 :: sfx', m, ?_, hfin, ?_, ?_⟩
        · rw [descend_cons, TrieNode.children_mk,
            childFind_of_mem_nodup cs q.1 q.2 hkeys (by simpa using hq), Option.some_bind]
          exact hdesc
        · obtain ⟨tail, rfl⟩ := descPaths_shape q.2 d' hd'
          rw [List.getLast?_cons_cons]
          exact hlast
        · rw [List.map_cons, hmap, show valch q.2 = q.1 from by simp [valch, hval q hq]]

theorem descPaths_complete (n : TrieNode) (hwf : WFNode n) :
    ∀ (sfx : List Char) (m : TrieNode), descend n sfx = some m → m.node_type = .Final →
      ∃ d ∈ descPaths n, d.map valch = valch n :: sfx ∧ d.getLast? = some m := by
  induction hwf with
  | mk v cs t ws ns hwfc hval hkeys ih =>
      intro sfx m hdesc hfin
      cases sfx with
      | nil =>
          obtain rfl : TrieNode.mk v cs t ws ns = m := by simpa using hdesc
          refine ⟨[TrieNode.mk v cs t ws ns], ?_, by simp, by simp⟩
          rw [descPaths_eq]
          apply List.mem_append.mpr
          left
          rw [if_pos (by simpa using hfin)]
          simp
      | cons c sfx' =>
          rw [descend_cons, TrieNode.children_mk] at hdesc
          cases hf : childFind c cs with
          | none =>
              rw [hf] at hdesc
              exact absurd hdesc (by simp)
          | some m₀ =>
              rw [hf, Option.some_bind] at hdesc
              have hmem : (c, m₀) ∈ cs := childFind_mem _ _ _ hf
              obtain ⟨d', hd', hmap, hlast⟩ := ih (c, m₀) hmem sfx' m hdesc hfin
              refine ⟨TrieNode.mk v cs t ws ns :: d', ?_, ?_, ?_⟩
              · rw [descPaths_eq]
                apply List.mem_append.mpr
                right
                exact List.mem_flatMap.mpr ⟨(c, m₀), hmem,
                  List.mem_map.mpr ⟨d', hd', rfl⟩⟩
              · rw [List.map_cons, hmap,
                  show valch m₀ = c from by simp [valch, hval (c, m₀) hmem]]
              · obtain ⟨tail, rfl⟩ := descPaths_shape m₀ d' hd'
                rw [List.getLast?_cons_cons]
                exact hlast

theorem mem_child_words (v : Option Char) (cs : List (Char × TrieNode)) (t : TrieNodeType)
    (ws : Option Int) (ns : Int) (q : Char × TrieNode) (hq : q ∈ cs)
    (hval : ∀ p ∈ cs, p.2.value = some p.1) (w : List Char)
    (hw : w ∈ (descPaths q.2).map
      (fun d => (TrieNode.mk v cs t ws ns :: d).map valch)) :
    ∃ tl, w = valch (TrieNode.mk v cs t ws ns) :: q.1 :: tl := by
  rcases List.mem_map.mp hw with ⟨d, hd, rfl⟩
  obtain ⟨tail, rfl⟩ := descPaths_shape q.2 d hd
  refine ⟨tail.map valch, ?_⟩
  rw [List.map_cons, List.map_cons,
    show valch q.2 = q.1 from by simp [valch, hval q hq]]

theorem descPaths_words_nodup (n : TrieNode) (hwf : WFNode n) :
    ((descPaths n).map (fun d => d.map valch)).Nodup := by
  induction hwf with
  | mk v cs t ws ns hwfc hval hkeys ih =>
      rw [descPaths_eq, List.map_append, List.map_flatMap]
      have hinner : ∀ q : Char × TrieNode,
          List.map (fun d => d.map valch)
              ((descPaths q.2).map (fun d => TrieNode.mk v cs t ws ns :: d)) =
            (descPaths q.2).map
              (fun d => (TrieNode.mk v cs t ws ns :: d).map valch) := by
        intro q
        rw [List.map_map]
        rfl
      refine List.Nodup.append ?_ ?_ ?_
      · by_cases ht : t = TrieNodeType.Final <;> simp [ht]
      · rw [List.nodup_flatMap]
        constructor
        · intro q hq
          rw [hinner q]
          have : (descPaths q.2).map
              (fun d => (TrieNode.mk v cs t ws ns :: d).map valch) =
            ((descPaths q.2).map (fun d => d.map valch)).map
              (fun w => valch (TrieNode.mk v cs t ws ns) :: w) := by
            rw [List.map_map]
            rfl
          rw [this]
          exact List.Nodup.map (fun a b hab => by injection hab) (ih q hq)
        · have hkeys' : (cs.map Prod.fst).Pairwise (fun a b => a ≠ b) := hkeys
          have hpw : cs.Pairwise (fun a b => a.1 ≠ b.1) := List.pairwise_map.mp hkeys'
          refine List.Pairwise.imp_of_mem ?_ hpw
          intro a b ha hb hab
          intro w hwa hwb
          dsimp only at hwa hwb
          rw [hinner a] at hwa
          rw [hinner b] at hwb
          obtain ⟨tla, hta⟩ := mem_child_words v cs t ws ns a ha hval w hwa
          obtain ⟨tlb, htb⟩ := mem_child_words v cs t ws ns b hb hval w hwb
          rw [hta] at htb
          injection htb with h1 h2
          injection h2 with h3 h4
          exact hab h3
      · intro w hw1 hw2
        have hlen1 : w.length = 1 := by
          by_cases ht : t = TrieNodeType.Final
          · rw [if_pos ht] at hw1
            have : w = [TrieNode.mk v cs t ws ns].map valch := by simpa using hw1
            rw [this]
            rfl
          · rw [if_neg ht] at hw1
            simp at hw1
        rcases List.mem_flatMap.mp hw2 with ⟨q, hq, hwq⟩
        rw [hinner q] at hwq
        obtain ⟨tl, htl⟩ := mem_child_words v cs t ws ns q hq hval w hwq
        rw [htl] at hlen1
        simp at hlen1

theorem wf_descend (p : List Char) :
    ∀ (n m : TrieNode), WFNode n → descend n p = some m → WFNode m := by
  induction p with
  | nil =>
      intro n m hwf h
      obtain rfl : n = m := by simpa using h
      exact hwf
  | cons c rest ih =>
      intro n m hwf h
      rw [descend_cons] at h
      cases hf : childFind c n.children with
      | none =>
          rw [hf] at h
          exact absurd h (by simp)
      | some m₀ =>
          rw [hf, Option.some_bind] at h
          exact ih m₀ m (WFNode.child n hwf c m₀ (childFind_mem _ _ _ hf)).1 h

theorem string_data_inj (a b : String) (h : a.data = b.data) : a = b := by
  cases a
  cases b
  exact congrArg String.mk h

theorem get_ranked_unbounded (t : Trie) (pfx : String) (l : List TrieNode)
    (hl : t._search pfx = some l) :
    t.get_ranked_results pfx =
      some ((sortDesc (rankedLoop 0 (wrapperFuel l) [l] [] 0)).map joinNodes) := by
  unfold Trie.get_ranked_results Trie._get_ranked_results
  simp only [hl]

theorem ranked_found_perm (l : List TrieNode) :
    (rankedLoop 0 (wrapperFuel l) [l] [] 0).Perm (wEmit l) := by
  have hfuel : heapMeasure [l] ≤ wrapperFuel l := by
    rw [heapMeasure_cons, heapMeasure_nil]
    cases hg : l.getLast? <;> simp [wrapperFuel, wrapSize, hg]
  have h := rankedLoop_zero (wrapperFuel l) [l] [] 0 hfuel
  simpa using h

/-! ### Claims C1 - C3 -/

/-- Claim C2 (amended): for every trie built by a sequence of insertions and
every NONEMPTY prefix whose character path exists in the trie,
`get_ranked_results` returns `Some` of exactly the distinct inserted words
having that prefix (the prefix itself included when it is itself a word),
ordered by descending `word_score` (the score of a word's latest
insertion), ties in arbitrary order.  For the empty prefix the function
instead returns `Some []` whatever was inserted (see the counterexample). -/
theorem C2_amended (L : List (String × Int)) (p : String) (hp : p ≠ "")
    (hpath : (buildTrie L)._search p ≠ none) :
    ∃ rs : List (String × Int),
      (buildTrie L).get_ranked_results p = some (rs.map Prod.fst) ∧
      (rs.map Prod.fst).Nodup ∧
      rs.Pairwise (fun a b => b.2 ≤ a.2) ∧
      (∀ w sc, (w, sc) ∈ rs ↔
        ((∃ s₀, (w, s₀) ∈ L) ∧ p.data <+: w.data ∧ sc = lastScore L w)) := by
  have hpd : p.data ≠ [] := fun h => hp ((string_data_nil p).mp h)
  obtain ⟨l, hl⟩ : ∃ l, (buildTrie L)._search p = some l := by
    cases hs : (buildTrie L)._search p with
    | none => exact absurd hs hpath
    | some l => exact ⟨l, rfl⟩
  have hwf := wf_buildTrie L
  have hlast : l.getLast? = descend (buildTrie L).root p.data :=
    searchGo_getLast p.data _ l hl hpd
  obtain ⟨n, hanchor⟩ : ∃ n, descend (buildTrie L).root p.data = some n := by
    cases hanc : descend (buildTrie L).root p.data with
    | none =>
        exfalso
        have h1 : (searchGo p.data (buildTrie L).root).isSome = true := by
          rw [show searchGo p.data (buildTrie L).root = some l from hl]
          rfl
        rw [searchGo_isSome, hanc] at h1
        exact Bool.noConfusion h1
    | some n => exact ⟨n, rfl⟩
  have hn : l.getLast? = some n := by rw [hlast, hanchor]
  have hwfn : WFNode n := wf_descend p.data _ n hwf hanchor
  have hlne : l ≠ [] := by
    intro hh
    rw [hh] at hn
    exact Option.noConfusion hn
  have hql : l.dropLast ++ [n] = l := by
    have h2 := List.getLast?_eq_getLast l hlne
    rw [hn] at h2
    have h3 : n = l.getLast hlne := by injection h2
    rw [h3]
    exact List.dropLast_append_getLast hlne
  have hjoin : l.map valch = p.data := searchGo_join p.data _ l hwf hl
  have hperm := ranked_found_perm l
  have hwe : wEmit l = (descPaths n).map (fun d => l.dropLast ++ d) := by
    conv_lhs => rw [← hql]
    rw [wEmit_concat]
  have hjoin2 : ∀ (d : List TrieNode) (sfx : List Char), d.map valch = valch n :: sfx →
      (joinNodes (l.dropLast ++ d)).data = p.data ++ sfx := by
    intro d sfx hdmap
    rw [joinNodes_eq]
    show (l.dropLast ++ d).map valch = p.data ++ sfx
    rw [List.map_append, hdmap, ← hjoin]
    conv_rhs => rw [← hql]
    rw [List.map_append]
    simp
  have hscore2 : ∀ (d : List TrieNode) (m : TrieNode), d.getLast? = some m →
      outputScore (l.dropLast ++ d) = m.word_score.getD 0 := by
    intro d m hdlast
    unfold outputScore
    rw [List.getLast?_append, hdlast]
    rfl
  refine ⟨(sortDesc (rankedLoop 0 (wrapperFuel l) [l] [] 0)).map
      (fun qw => (joinNodes qw, outputScore qw)), ?_, ?_, ?_, ?_⟩
  · rw [get_ranked_unbounded _ p l hl, List.map_map]
    rfl
  · have hstep : (((sortDesc (rankedLoop 0 (wrapperFuel l) [l] [] 0)).map
        (fun qw => (joinNodes qw, outputScore qw))).map Prod.fst)
        = (sortDesc (rankedLoop 0 (wrapperFuel l) [l] [] 0)).map joinNodes := by
      rw [List.map_map]
      rfl
    rw [hstep]
    have hpm : (((sortDesc (rankedLoop 0 (wrapperFuel l) [l] [] 0)).map joinNodes)).Perm
        ((wEmit l).map joinNodes) :=
      List.Perm.map joinNodes ((sortDesc_perm _).trans hperm)
    rw [hpm.nodup_iff]
    rw [hwe, List.map_map]
    have hcomp : (joinNodes ∘ fun d => l.dropLast ++ d) =
        (fun w : List Char => (⟨(l.dropLast.map valch) ++ w⟩ : String)) ∘
          (fun d : List TrieNode => d.map valch) := by
      funext d
      simp [joinNodes_eq, Function.comp]
    rw [hcomp, ← List.map_map]
    refine List.Nodup.map ?_ (descPaths_words_nodup n hwfn)
    intro a b hab
    have h2 := congrArg String.data hab
    simpa using h2
  · refine List.Pairwise.map _ ?_ (sortDesc_sorted _)
    intro a b hab
    exact hab
  · intro w sc
    rw [List.mem_map]
    constructor
    · rintro ⟨qw, hqw, hpair⟩
      have hw_eq : joinNodes qw = w := congrArg Prod.fst hpair
      have hsc_eq : outputScore qw = sc := congrArg Prod.snd hpair
      have hqw2 : qw ∈ wEmit l := hperm.mem_iff.mp ((sortDesc_perm _).mem_iff.mp hqw)
      rw [hwe] at hqw2
      rcases List.mem_map.mp hqw2 with ⟨d, hd, rfl⟩
      obtain ⟨sfx, m, hdesc, hfin, hdlast, hdmap⟩ := descPaths_sound n hwfn d hd
      have hword : w.data = p.data ++ sfx := by
        rw [← hw_eq]
        exact hjoin2 d sfx hdmap
      have hdesc2 : descend (buildTrie L).root w.data = some m := by
        rw [hword, descend_append, hanchor, Option.some_bind]
        exact hdesc
      have htw1 : twAt (buildTrie L).root w.data = some (m.node_type, m.word_score) := by
        simp [twAt, hdesc2]
      obtain ⟨s', hs'⟩ : ∃ s', lastScoreAux L w.data = some s' := by
        cases hls : lastScoreAux L w.data with
        | some s' => exact ⟨s', rfl⟩
        | none =>
            exfalso
            have hempty : twAt (TrieNode.new none) w.data = none := by
              rw [twAt_eq_none, hword]
              cases hc : p.data with
              | nil => exact absurd hc hpd
              | cons c r =>
                  rw [List.cons_append, descend_cons]
                  rfl
            have h2 := nodeBuild_tw_new L (TrieNode.new none) w.data hls hempty
            rw [← buildTrie_root] at h2
            rcases h2 with h2 | h2
            · rw [htw1] at h2
              exact Option.noConfusion h2
            · rw [htw1] at h2
              injection h2 with h3
              have h4 : m.node_type = TrieNodeType.Intermediate := congrArg Prod.fst h3
              rw [hfin] at h4
              exact TrieNodeType.noConfusion h4
      have htww : twAt (buildTrie L).root w.data = some (.Final, some s') := by
        rw [buildTrie_root]
        exact nodeBuild_tw_some L _ w.data s' hs'
      have hmws : m.word_score = some s' := by
        rw [htw1] at htww
        injection htww with h3
        exact congrArg Prod.snd h3
      refine ⟨?_, ⟨sfx, hword.symm⟩, ?_⟩
      · by_contra hno
        push_neg at hno
        have hall : ∀ q ∈ L, q.1.data ≠ w.data := by
          intro q hq hqd
          have hq1 : q.1 = w := string_data_inj _ _ hqd
          refine hno q.2 ?_
          rw [← hq1]
          exact hq
        rw [← lastScoreAux_none_iff] at hall
        rw [hall] at hs'
        exact Option.noConfusion hs'
      · rw [← hsc_eq, hscore2 d m hdlast, hmws]
        unfold lastScore
        rw [hs']
    · rintro ⟨⟨s₀, hs₀⟩, ⟨sfx, hsfx⟩, hsc⟩
      obtain ⟨s', hs'⟩ := lastScoreAux_of_mem L w s₀ hs₀
      have htww : twAt (buildTrie L).root w.data = some (.Final, some s') := by
        rw [buildTrie_root]
        exact nodeBuild_tw_some L _ w.data s' hs'
      obtain ⟨m, hm, hmt, hmw⟩ := (twAt_eq_some _ _ _).mp htww
      have hdescn : descend n sfx = some m := by
        rw [← hsfx, descend_append, hanchor, Option.some_bind] at hm
        exact hm
      obtain ⟨d, hd, hdmap, hdlast⟩ := descPaths_complete n hwfn sfx m hdescn hmt
      refine ⟨l.dropLast ++ d, ?_, ?_⟩
      · apply (sortDesc_perm _).mem_iff.mpr
        apply hperm.mem_iff.mpr
        rw [hwe]
        exact List.mem_map.mpr ⟨d, hd, rfl⟩
      · show (joinNodes (l.dropLast ++ d), outputScore (l.dropLast ++ d)) = (w, sc)
        have hword : joinNodes (l.dropLast ++ d) = w := by
          apply string_data_inj
          rw [hjoin2 d sfx hdmap, hsfx]
        have hsco : outputScore (l.dropLast ++ d) = sc := by
          rw [hscore2 d m hdlast, hmw, hsc]
          unfold lastScore
          rw [hs']
        rw [hword, hsco]

/-- Claim C2, as stated (which includes the empty prefix anchored at the
root), is false: with "a" inserted, the empty prefix's path exists but
`get_ranked_results("")` returns `Some []`, omitting "a". -/
theorem C2_counterexample :
    ¬ (∀ (L : List (String × Int)) (p : String),
        (buildTrie L)._search p ≠ none →
        ∃ ws, (buildTrie L).get_ranked_results p = some ws ∧
          ∀ q ∈ L, p.data <+: q.1.data → q.1 ∈ ws) := by
  intro h
  obtain ⟨ws, hws, hmem⟩ := h [("a", 1)] ""
    (Option.ne_none_iff_isSome.mpr rfl)
  have heval : (buildTrie [("a", 1)]).get_ranked_results "" = some [] := rfl
  rw [heval] at hws
  obtain rfl : ([] : List String) = ws := by injection hws
  have h1 : ("a" : String) ∈ ([] : List String) :=
    hmem ("a", 1) (by simp) List.nil_prefix
  cases h1

/-- Witness for C2 (amended) at a concrete input. -/
theorem C2_witness :
    ("a" : String) ≠ "" ∧ (buildTrie [("ab", 2), ("a", 1)])._search "a" ≠ none ∧
      ∃ rs : List (String × Int),
        (buildTrie [("ab", 2), ("a", 1)]).get_ranked_results "a" =
          some (rs.map Prod.fst) ∧
        (rs.map Prod.fst).Nodup ∧
        rs.Pairwise (fun a b => b.2 ≤ a.2) ∧
        (∀ w sc, (w, sc) ∈ rs ↔
          ((∃ s₀, (w, s₀) ∈ [(("ab" : String), (2 : Int)), ("a", 1)]) ∧
            ("a" : String).data <+: w.data ∧
            sc = lastScore [("ab", 2), ("a", 1)] w)) :=
  ⟨by decide, Option.ne_none_iff_isSome.mpr rfl,
    C2_amended [("ab", 2), ("a", 1)] "a" (by decide)
      (Option.ne_none_iff_isSome.mpr rfl)⟩

/-- Claim C3, as stated, is false on its "empty completions" example:
after inserting only "Foo", `get_ranked_results("Foo")` is not the empty
(present) sequence — the anchor node of the prefix is itself `Final` and
is emitted. -/
theorem C3_counterexample :
    ¬ ((Trie.new.insert "Foo").get_ranked_results "Foo" = some []) := by
  intro h
  rw [show (Trie.new.insert "Foo").get_ranked_results "Foo" = some ["Foo"] from rfl] at h
  simp at h

/-- Claim C3 (amended): `get_ranked_results(prefix)` returns `None` exactly
when the prefix's character path is absent from the trie; when the path
exists it returns a present sequence, which contains the prefix itself
whenever the prefix is an inserted word.  In particular, after inserting
only "Foo", `get_ranked_results("Foo")` returns `Some ["Foo"]` (not the
empty sequence), while `get_ranked_results("Zz")` returns `None`. -/
theorem C3_amended :
    (∀ (t : Trie) (pfx : String),
      t.get_ranked_results pfx = none ↔ t._search pfx = none) ∧
    (Trie.new.insert "Foo").get_ranked_results "Foo" = some ["Foo"] ∧
    (Trie.new.insert "Foo").get_ranked_results "Zz" = none := by
  refine ⟨?_, rfl, rfl⟩
  intro t pfx
  unfold Trie.get_ranked_results Trie._get_ranked_results
  cases hs : t._search pfx with
  | none => simp [hs]
  | some l => simp [hs]

/-- Claim C1 fails on the code: on the insertions
`("xab", 10), ("xa", 1), ("xc", 5)`, `get_k_ranked_results("x", 2)` returns
`["xab", "xa"]`, discarding "xc" (score 5 > 1) although it belongs to the
top 2 — the break rule compares the popped bound with the maximum
`node_score` among emitted results instead of the k-th best word score.
With ties, the function can even return more than `k` words:
`get_k_ranked_results("a", 1)` below returns two. -/
theorem C1_theorem :
    ((buildTrie [("xab", 10), ("xa", 1), ("xc", 5)]).get_k_ranked_results "x" 2 =
      some ["xab", "xa"]) ∧
    ((buildTrie [("ab", 0), ("ac", 0)]).get_k_ranked_results "a" 1 =
      some ["ab", "ac"]) :=
  ⟨rfl, rfl⟩

/-! ### Claims C4 - C10 -/

/-- Claim C10: for every trie (whatever was inserted, including the empty
string), `search("")` returns `None`: the search path of the empty string
records no nodes, so its terminal kind cannot be observed. -/
theorem C10_theorem (t : Trie) : t.search "" = none := rfl

/-- Claim C9: `k = 0` is the unbounded sentinel: for every trie and prefix,
`get_k_ranked_results(prefix, 0)` returns exactly the same result as
`get_ranked_results(prefix)`. -/
theorem C9_theorem (t : Trie) (pfx : String) :
    t.get_k_ranked_results pfx 0 = t.get_ranked_results pfx := rfl

/-- Claim C5, as stated, is false: the empty string can be inserted but
`search("")` still returns `None`. -/
theorem C5_counterexample :
    ¬ (∀ (L : List (String × Int)) (w : String) (s : Int),
        (w, s) ∈ L → (buildTrie L).search w = some w) := by
  intro h
  have h2 := h [("", 7)] "" 7 (by simp)
  rw [show (buildTrie [("", 7)]).search "" = none from rfl] at h2
  exact Option.noConfusion h2

/-- Claim C5 (amended): round-trip membership for every inserted nonempty
word: after any insertion sequence containing `(w, s)` with `w ≠ ""`,
`search(w)` returns `Some(w)`. -/
theorem C5_amended (L : List (String × Int)) (w : String) (s : Int)
    (hmem : (w, s) ∈ L) (hne : w ≠ "") : (buildTrie L).search w = some w := by
  have hwdata : w.data ≠ [] := fun h => hne ((string_data_nil w).mp h)
  obtain ⟨s', hs'⟩ := lastScoreAux_of_mem L w s hmem
  have htw : twAt (buildTrie L).root w.data = some (.Final, some s') := by
    rw [buildTrie_root]
    exact nodeBuild_tw_some L _ w.data s' hs'
  obtain ⟨m, hm, hmtype, hmws⟩ := (twAt_eq_some _ _ _).mp htw
  have hsome : (searchGo w.data (buildTrie L).root).isSome := by
    rw [searchGo_isSome, hm]
    rfl
  obtain ⟨l, hl⟩ := Option.isSome_iff_exists.mp hsome
  have hlast : l.getLast? = some m := by
    rw [searchGo_getLast w.data _ l hl hwdata, hm]
  have hleaf : leafType l = some .Final := by
    rw [leafType, hlast]
    simp [hmtype]
  have hstep : (buildTrie L).search w = some (joinNodes l) := by
    unfold Trie.search Trie._search
    simp only [hl, hleaf]
  rw [hstep, join_of_search _ _ _ (wf_buildTrie L) hl]

/-- Witness for C5 (amended) at a concrete input. -/
theorem C5_witness :
    (("ab", (3 : Int)) ∈ [(("ab" : String), (3 : Int))]) ∧ ("ab" : String) ≠ "" ∧
      (buildTrie [("ab", 3)]).search "ab" = some "ab" :=
  ⟨by simp, by decide, C5_amended [("ab", 3)] "ab" 3 (by simp) (by decide)⟩

/-- Claim C8: prefix containment: for every inserted word `w` and every
prefix `p` of `w` (including the empty prefix and `p = w`),
`starts_with(p)` returns `Some(p)`. -/
theorem C8_theorem (L : List (String × Int)) (w : String) (s : Int) (p : String)
    (hmem : (w, s) ∈ L) (hpre : p.data <+: w.data) :
    (buildTrie L).starts_with p = some p := by
  by_cases hp : p.data = []
  · have hpe : p = "" := (string_data_nil p).mp hp
    subst hpe
    rfl
  · have hex : ∃ m', descend (buildTrie L).root p.data = some m' := by
      rw [buildTrie_root]
      obtain ⟨m', hm', -⟩ := nodeBuild_path L (TrieNode.new none) (w, s) hmem p.data hp hpre
      exact ⟨m', hm'⟩
    obtain ⟨m', hm'⟩ := hex
    have hsome : (searchGo p.data (buildTrie L).root).isSome := by
      rw [searchGo_isSome, hm']
      rfl
    obtain ⟨l, hl⟩ := Option.isSome_iff_exists.mp hsome
    have hstep : (buildTrie L).starts_with p = some (joinNodes l) := by
      unfold Trie.starts_with Trie._search
      simp only [hl]
    rw [hstep, join_of_search _ _ _ (wf_buildTrie L) hl]

/-- Witness for C8 at a concrete input. -/
theorem C8_witness :
    (("ab", (3 : Int)) ∈ [(("ab" : String), (3 : Int))]) ∧
      ("a" : String).data <+: ("ab" : String).data ∧
      (buildTrie [("ab", 3)]).starts_with "a" = some "a" :=
  ⟨by simp, ⟨['b'], rfl⟩, C8_theorem [("ab", 3)] "ab" 3 "a" (by simp) ⟨['b'], rfl⟩⟩

/-- Claim C4, as stated (with the root lying on every insertion path, i.e.
including the empty path), is false: `_insert` never raises the root's
`node_score`. -/
theorem C4_counterexample :
    ¬ (∀ (L : List (String × Int)) (w : String) (s : Int), (w, s) ∈ L →
        ∀ p : List Char, p <+: w.data →
          ∃ m, descend (buildTrie L).root p = some m ∧ s ≤ m.node_score) := by
  intro h
  obtain ⟨m, hm, hs⟩ := h [("a", 5)] "a" 5 (by simp) [] List.nil_prefix
  have hm' : m = (buildTrie [("a", 5)]).root := by simpa using hm.symm
  rw [hm'] at hs
  rw [show (buildTrie [("a", 5)]).root.node_score = 0 from rfl] at hs
  omega

/-- Claim C4 (amended): the aggregation invariant holds at every non-root
node of an insertion path: if `(w, s)` was inserted and `p` is a nonempty
prefix of `w`, the node at `p` exists and its `node_score` is at least `s`.
The root (the node at the empty path) is excluded: its `node_score` is
never updated. -/
theorem C4_amended (L : List (String × Int)) (w : String) (s : Int) (p : List Char)
    (hmem : (w, s) ∈ L) (hne : p ≠ []) (hpre : p <+: w.data) :
    ∃ m, descend (buildTrie L).root p = some m ∧ s ≤ m.node_score := by
  rw [buildTrie_root]
  exact nodeBuild_path L _ (w, s) hmem p hne hpre

/-- Witness for C4 (amended) at a concrete input. -/
theorem C4_witness :
    (("ab", (5 : Int)) ∈ [(("ab" : String), (5 : Int))]) ∧
      (['a'] : List Char) ≠ [] ∧ (['a'] : List Char) <+: ("ab" : String).data ∧
      ∃ m, descend (buildTrie [("ab", 5)]).root ['a'] = some m ∧ 5 ≤ m.node_score :=
  ⟨by simp, by decide, ⟨['b'], rfl⟩,
    C4_amended [("ab", 5)] "ab" 5 ['a'] (by simp) (by decide) ⟨['b'], rfl⟩⟩

/-- Claim C6, as stated (every node on the insertion path strictly above the
terminal, which includes the root), is false: the root's `node_score` stays
`0`. -/
theorem C6_counterexample :
    ¬ (∀ (t : Trie) (w : String) (s1 s2 : Int) (p : List Char),
        p <+: w.data → p ≠ w.data →
        ∃ m, descend ((t.insert_with_score w s1).insert_with_score w s2).root p = some m ∧
          max s1 s2 ≤ m.node_score) := by
  intro h
  obtain ⟨m, hm, hle⟩ := h Trie.new "a" 5 5 [] List.nil_prefix (by decide)
  have hm' : m = ((Trie.new.insert_with_score "a" 5).insert_with_score "a" 5).root := by
    simpa using hm.symm
  rw [hm'] at hle
  rw [show ((Trie.new.insert_with_score "a" 5).insert_with_score "a" 5).root.node_score = 0
    from rfl] at hle
  simp at hle

/-- Claim C6 (amended): after `insert_with_score(w, s1)` then
`insert_with_score(w, s2)` on any trie, the terminal node of `w` is `Final`
with `word_score = s2` (latest wins), and every non-root node on `w`'s
insertion path (the nodes at nonempty prefixes of `w`) has
`node_score ≥ max(s1, s2)`; the root is excluded, its `node_score` being
never updated. -/
theorem C6_amended (t : Trie) (w : String) (s1 s2 : Int) :
    (∃ m, descend ((t.insert_with_score w s1).insert_with_score w s2).root w.data = some m ∧
        m.node_type = .Final ∧ m.word_score = some s2) ∧
    (∀ p : List Char, p ≠ [] → p <+: w.data →
      ∃ m, descend ((t.insert_with_score w s1).insert_with_score w s2).root p = some m ∧
        max s1 s2 ≤ m.node_score) := by
  constructor
  · have htw : twAt (insertGo s2 w.data (insertGo s1 w.data t.root)) w.data =
        some (.Final, some s2) := twAt_insertGo_self s2 w.data _
    obtain ⟨m, hm, h1, h2⟩ := (twAt_eq_some _ _ _).mp htw
    exact ⟨m, hm, h1, h2⟩
  · intro p hne hpre
    obtain ⟨m₁, hm₁, hs1⟩ := descend_insertGo_path s1 w.data p t.root hpre hne
    obtain ⟨m₂, hm₂, hle⟩ := descend_insertGo_mono s2 w.data p _ m₁ hm₁
    obtain ⟨m₃, hm₃, hs2⟩ := descend_insertGo_path s2 w.data p (insertGo s1 w.data t.root)
      hpre hne
    rw [hm₂] at hm₃
    obtain rfl : m₂ = m₃ := by injection hm₃
    exact ⟨m₂, hm₂, max_le (le_trans hs1 hle) hs2⟩

/-- Witness for C6 (amended) at a concrete input. -/
theorem C6_witness :
    (∃ m, descend ((Trie.new.insert_with_score "ab" 1).insert_with_score "ab" 4).root
        ("ab" : String).data = some m ∧ m.node_type = .Final ∧ m.word_score = some 4) ∧
      ((['a'] : List Char) ≠ [] ∧ (['a'] : List Char) <+: ("ab" : String).data ∧
        ∃ m, descend ((Trie.new.insert_with_score "ab" 1).insert_with_score "ab" 4).root
          ['a'] = some m ∧ max (1 : Int) 4 ≤ m.node_score) :=
  ⟨(C6_amended Trie.new "ab" 1 4).1,
    by decide, ⟨['b'], rfl⟩,
    (C6_amended Trie.new "ab" 1 4).2 ['a'] (by decide) ⟨['b'], rfl⟩⟩

/-- Claim C7, as stated ("the root's kind is never `Final`", including after
insertion of the empty string), is false: inserting `""` marks the root
`Final`. -/
theorem C7_counterexample :
    ¬ (∀ L : List (String × Int), (buildTrie L).root.node_type ≠ TrieNodeType.Final) :=
  fun h => h [("", 0)] rfl

/-- Claim C7 (amended): in every reachable trie the root has no `value`;
and as long as the empty string is never inserted, the root is never
`Final`. -/
theorem C7_amended (L : List (String × Int)) :
    (buildTrie L).root.value = none ∧
      ((∀ q ∈ L, q.1 ≠ "") → (buildTrie L).root.node_type = .Intermediate) := by
  constructor
  · rw [buildTrie_root, nodeBuild_value]
    rfl
  · intro hL
    rw [buildTrie_root,
      nodeBuild_node_type L (fun q hq h => hL q hq ((string_data_nil q.1).mp h))]
    rfl

/-- Witness for C7 (amended) at a concrete input. -/
theorem C7_witness :
    (buildTrie [("a", 1)]).root.value = none ∧
      (buildTrie [("a", 1)]).root.node_type = .Intermediate :=
  ⟨(C7_amended [("a", 1)]).1, (C7_amended [("a", 1)]).2 (by decide)⟩

end RustTrie
